import Mathlib

/-!
# Verification of the incremental, cached evaluation-and-merge pipeline

Shallow embedding of the evaluation core of the `eval` repository: chunk
planning, chunked execution (sequential and parallel), LLM merge with
deterministic average fallback, alias aggregation, checkpoint accumulation,
and the trajectory-analysis front-end helpers.

The backend service sources (`evaluator/…`, `plugins/…/scan/__init__.py`) are
not part of the checked-in tree; where a definition embeds one of those
modules it is modelled from the specification and the repository's own
design documents (`docs/PARALLEL_CHUNKING_IMPLEMENTATION.md`, `README.md`,
the schema declarations in `webapp/types/trajectory.ts`), as noted on each
definition. The front-end helpers (`groupedUsername`) are embedded directly
from the TypeScript source.
-/

namespace Eval

/-- Modelled from the spec: a commit record supplied by the Commit Source
(`{id (sha), author_identity, timestamp, diff/summary text, files_changed,
additions, deletions}`). Immutable input to the core. -/
structure Commit where
  id : String
  author_identity : String
  timestamp : Nat
  summary : String
  files_changed : Nat
  additions : Nat
  deletions : Nat
deriving DecidableEq, Repr

/-- Modelled from the spec: the Chunk Planner (missing backend module
`plugins/…/scan/__init__.py`). Splits an ordered commit list into bounded
chunks of at most `budget` commits, in original order. A chunk always takes
at least one commit, so the planner terminates even for a degenerate budget. -/
def chunkPlanner (budget : Nat) : List Commit → List (List Commit)
  | [] => []
  | c :: cs =>
      (c :: cs.take (budget - 1)) :: chunkPlanner budget (cs.drop (budget - 1))
termination_by l => l.length
decreasing_by
  simp only [List.length_drop, List.length_cons]
  omega

/-- The six scoring dimensions of the 2026 rubric, as declared by
`ScoresSchema` in `webapp/types/trajectory.ts` and the evaluation API
schemas (each dimension an int in 0-100). -/
def dimensions : List String :=
  ["ai_fullstack", "ai_architecture", "cloud_native", "open_source",
   "intelligent_dev", "leadership"]

def numDims : Nat := dimensions.length

/-- Modelled from the spec: a per-chunk Judge result
`{chunk_index, scores, reasoning}` (`ChunkResult`, consumed by the Merge
Engine). Scores are rationals so that averaged results are represented
exactly. -/
structure ChunkResult where
  chunk_index : Nat
  scores : List ℚ
  reasoning : String
deriving DecidableEq, Repr

/-- `CommitsSummarySchema` from `webapp/types/trajectory.ts`. -/
structure CommitsSummary where
  total_additions : Nat
  total_deletions : Nat
  files_changed : Nat
deriving DecidableEq, Repr

/-- `EvaluationSchema` from `webapp/types/trajectory.ts` (the fields the
pipeline claims are about). -/
structure Evaluation where
  username : String
  scores : List ℚ
  reasoning : String
  commits_summary : CommitsSummary
  last_commit_sha : Option String
  total_commits_evaluated : Nat
  new_commits_count : Nat
deriving DecidableEq, Repr

/-- Schema validation of a score list: the declared number of dimensions,
each in the range 0-100 (`ScoresSchema`'s `int (0-100)` constraints). -/
def validScoresB (scores : List ℚ) : Bool :=
  scores.length == numDims && scores.all fun s => decide (0 ≤ s) && decide (s ≤ 100)

/-- Modelled from the spec: per-chunk failure modes of one Judge call
(`JudgeCallError`): transport error, caller-level timeout, or a response
failing schema validation. -/
inductive JudgeError where
  | timeout
  | apiError (msg : String)
  | invalidResponse
deriving DecidableEq, Repr

/-- Modelled from the spec: merged scores plus merged reasoning text, the
intermediate product of the Merge Engine before the persisted Evaluation is
assembled. -/
structure MergedResult where
  scores : List ℚ
  reasoning : String
deriving DecidableEq, Repr

/-- Modelled from the spec: the external Judge collaborator. `score` receives
the optional baseline per-dimension scores as read-only context plus one
chunk of commits; `merge` is the LLM-based intelligent merge of parallel
chunk results (`Merge(chunk_results[]) -> Evaluation|error`). -/
structure JudgeOracle where
  score : Option (List ℚ) → List Commit → Except JudgeError ChunkResult
  merge : List ChunkResult → Option MergedResult

/-- One guarded Judge call: the raw response is schema-validated, and an
out-of-range or malformed score set is recorded as a per-chunk failure just
like a transport failure. -/
def callJudge (judge : JudgeOracle) (ctx : Option (List ℚ)) (chunk : List Commit) :
    Except JudgeError ChunkResult :=
  match judge.score ctx chunk with
  | .ok r => if validScoresB r.scores then .ok r else .error .invalidResponse
  | .error e => .error e

/-- Modelled from the spec: parallel-mode execution
(`_evaluate_chunks_parallel`). Every chunk is judged independently; the
baseline context is supplied to at most the first chunk only; an individual
chunk's failure is caught and recorded in its own slot without aborting the
sibling chunks. -/
def runChunksWithBaseline (judge : JudgeOracle) (baselineScores : Option (List ℚ)) :
    List (List Commit) → List (Except JudgeError ChunkResult)
  | [] => []
  | first :: rest => callJudge judge baselineScores first :: rest.map (callJudge judge none)

/-- The successful `ChunkResult`s among the per-chunk outcomes. -/
def successfulResults (outcomes : List (Except JudgeError ChunkResult)) :
    List ChunkResult :=
  outcomes.filterMap fun o =>
    match o with
    | .ok r => some r
    | .error _ => none

/-- Comparison of chunk results by their original chunk index. -/
def indexLE (a b : ChunkResult) : Prop := a.chunk_index ≤ b.chunk_index

instance : DecidableRel indexLE := fun a b =>
  inferInstanceAs (Decidable (a.chunk_index ≤ b.chunk_index))

/-- Modelled from the spec's ordering guarantee: chunk results may complete
in any order in parallel mode, so the Merge Engine re-sorts them by original
chunk index before merging. -/
def sortByChunkIndex (rs : List ChunkResult) : List ChunkResult :=
  List.insertionSort indexLE rs

def reasoningSeparator : String := "\n\n---\n\n"

def maxMergedReasoningLength : Nat := 4000

/-- Unweighted arithmetic mean of dimension `i` across chunk results. -/
def dimAverage (rs : List ChunkResult) (i : Nat) : ℚ :=
  (rs.map fun r => r.scores.getD i 0).sum / rs.length

/-- Modelled from the spec: `_simple_average_merge` — the deterministic
fallback used when the LLM merge fails: unweighted arithmetic mean per
dimension across all successful ChunkResults, with the reasoning texts
concatenated and truncated. -/
def simpleAverageMerge (rs : List ChunkResult) : MergedResult :=
  { scores := (List.range numDims).map (dimAverage rs)
    reasoning :=
      (String.intercalate reasoningSeparator
        (rs.map ChunkResult.reasoning)).take maxMergedReasoningLength }

/-- Modelled from the spec: `_merge_chunk_results_with_llm` — parallel-mode
merge. The successful results are re-sorted by original chunk index; the
LLM-based intelligent merge is attempted first, and a failed call or an
invalid (schema-violating) response falls back deterministically to
`simpleAverageMerge`. Returns `none` only when no chunk succeeded. -/
def parallelMergeResults (llm : List ChunkResult → Option MergedResult)
    (results : List ChunkResult) : Option MergedResult :=
  if results.isEmpty then none
  else
    match llm (sortByChunkIndex results) with
    | some m =>
        if validScoresB m.scores then some m
        else some (simpleAverageMerge (sortByChunkIndex results))
    | none => some (simpleAverageMerge (sortByChunkIndex results))

/-- Modelled from the spec: `_evaluate_chunks_sequential` — progressive
merge. Chunks are judged one at a time in order; each call sees the
cumulative result so far (or the baseline scores before any chunk
succeeded); a failing chunk is recorded and skipped without aborting the
batch. -/
def sequentialFold (judge : JudgeOracle) (baselineScores : Option (List ℚ)) :
    List (List Commit) → Option ChunkResult → Option ChunkResult
  | [], acc => acc
  | ch :: rest, acc =>
      match callJudge judge ((acc.map ChunkResult.scores).orElse fun _ => baselineScores) ch with
      | .ok r => sequentialFold judge baselineScores rest (some r)
      | .error _ => sequentialFold judge baselineScores rest acc

/-- Modelled from the spec: assembling the persisted Evaluation from the
merged scores/reasoning, the commits evaluated in this run, and the optional
cached baseline. `last_commit_sha` advances to the newest commit of the run,
`total_commits_evaluated` extends the baseline's running total, and
`commits_summary` aggregates the run's commits. -/
def finalizeEvaluation (username : String) (baseline : Option Evaluation)
    (commits : List Commit) (m : MergedResult) : Evaluation :=
  { username := username
    scores := m.scores
    reasoning := m.reasoning
    commits_summary :=
      { total_additions := (commits.map Commit.additions).sum
        total_deletions := (commits.map Commit.deletions).sum
        files_changed := (commits.map Commit.files_changed).sum }
    last_commit_sha := ((commits.getLast?).map Commit.id).orElse
      fun _ => baseline.bind Evaluation.last_commit_sha
    total_commits_evaluated :=
      (baseline.map Evaluation.total_commits_evaluated).getD 0 + commits.length
    new_commits_count := commits.length }

instance {ε α : Type} [DecidableEq ε] [DecidableEq α] : DecidableEq (Except ε α) :=
  fun a b =>
    match a, b with
    | .ok x, .ok y =>
        if h : x = y then isTrue (by rw [h])
        else isFalse (by intro hc; injection hc; contradiction)
    | .ok _, .error _ => isFalse (by intro hc; cases hc)
    | .error _, .ok _ => isFalse (by intro hc; cases hc)
    | .error x, .error y =>
        if h : x = y then isTrue (by rw [h])
        else isFalse (by intro hc; injection hc; contradiction)

/-- Modelled from the spec: the fatal error taxonomy the Executor surfaces to
the caller (malformed/empty commit input; every chunk failed). -/
inductive EvalError where
  | noCommits
  | allChunksFailed
deriving DecidableEq, Repr

/-- An evaluation together with the number of Judge calls the run performed. -/
structure EvalOutcome where
  evaluation : Evaluation
  judge_calls : Nat
deriving DecidableEq, Repr

/-- Modelled from the spec: `_evaluate_engineer_chunked` — the Evaluation
Executor. Plans chunks, then routes to parallel or sequential execution.
Parallel mode spends one Judge call per chunk plus one merge call; the batch
is fatal only when every chunk failed. -/
def evaluateCommits (judge : JudgeOracle) (parallel : Bool) (budget : Nat)
    (username : String) (commits : List Commit) (baseline : Option Evaluation) :
    Except EvalError EvalOutcome :=
  if commits.isEmpty then .error .noCommits
  else if parallel then
    match parallelMergeResults judge.merge (successfulResults
        (runChunksWithBaseline judge (baseline.map Evaluation.scores)
          (chunkPlanner budget commits))) with
    | none => .error .allChunksFailed
    | some m =>
        .ok { evaluation := finalizeEvaluation username baseline commits m
              judge_calls := (chunkPlanner budget commits).length + 1 }
  else
    match sequentialFold judge (baseline.map Evaluation.scores)
        (chunkPlanner budget commits) none with
    | none => .error .allChunksFailed
    | some r =>
        .ok { evaluation := finalizeEvaluation username baseline commits
                { scores := r.scores, reasoning := r.reasoning }
              judge_calls := (chunkPlanner budget commits).length }

/-- Modelled from the spec: the commits newer than the cached
`last_commit_sha` (the Commit Source is queried with `since_commit_id`). -/
def commitsSince (lastSha : Option String) (commits : List Commit) : List Commit :=
  match lastSha with
  | none => commits
  | some sha =>
      match commits.findIdx? fun c => c.id == sha with
      | some i => commits.drop (i + 1)
      | none => commits

/-- Modelled from the spec: `evaluate_author_incremental` — the cached
Evaluation is returned unchanged, with zero Judge calls, when its
`last_commit_sha` already covers every known commit; otherwise only the new
commits are evaluated incrementally on top of the cached baseline. -/
def evaluate (judge : JudgeOracle) (parallel : Bool) (budget : Nat)
    (username : String) (allCommits : List Commit) (cached : Option Evaluation) :
    Except EvalError EvalOutcome :=
  match cached with
  | some e =>
      let newCommits := commitsSince e.last_commit_sha allCommits
      if newCommits.isEmpty then .ok { evaluation := e, judge_calls := 0 }
      else evaluateCommits judge parallel budget username newCommits (some e)
  | none => evaluateCommits judge parallel budget username allCommits none

/-- One entry of the `/api/merge-evaluations` request body (`README.md`): an
alias, its commit-count weight, and its independently cached Evaluation. -/
structure WeightedEvaluation where
  author : String
  weight : Nat
  evaluation : Evaluation
deriving DecidableEq, Repr

def totalWeight (entries : List WeightedEvaluation) : ℚ :=
  (((entries.map WeightedEvaluation.weight).sum : Nat) : ℚ)

/-- Commit-count-weighted average of dimension `i` across identities:
`merged_score[dimension] = sum(eval[dimension] * weight) / total_weight`
(README, `/api/merge-evaluations`). -/
def weightedDimScore (entries : List WeightedEvaluation) (i : Nat) : ℚ :=
  (entries.map fun we => (we.weight : ℚ) * we.evaluation.scores.getD i 0).sum
    / totalWeight entries

/-- Deterministic fallback for a failed synthesis call: the individual
reasonings concatenated, labeled by identity. -/
def labeledConcat (entries : List WeightedEvaluation) : String :=
  String.intercalate reasoningSeparator
    (entries.map fun we => we.author ++ ": " ++ we.evaluation.reasoning)

/-- Modelled from the spec: `/api/merge-evaluations` — the Alias Aggregator.
Per-dimension scores are the commit-count-weighted average across the
identities, `commits_summary` fields and the running totals sum across
identities, and the reasoning comes from one Judge synthesis call with the
deterministic labeled-concatenation fallback. -/
def mergeEvaluations (synth : List WeightedEvaluation → Option String)
    (username : String) (entries : List WeightedEvaluation) : Evaluation :=
  { username := username
    scores := (List.range numDims).map (weightedDimScore entries)
    reasoning :=
      match synth entries with
      | some r => r
      | none => labeledConcat entries
    commits_summary :=
      { total_additions :=
          (entries.map fun we => we.evaluation.commits_summary.total_additions).sum
        total_deletions :=
          (entries.map fun we => we.evaluation.commits_summary.total_deletions).sum
        files_changed :=
          (entries.map fun we => we.evaluation.commits_summary.files_changed).sum }
    last_commit_sha := none
    total_commits_evaluated :=
      (entries.map fun we => we.evaluation.total_commits_evaluated).sum
    new_commits_count := 0 }

/-- `min_commits_per_checkpoint` (default 10); the webapp hard-codes the same
threshold (`10 - accumulated_commits.length` in `TrajectoryAnalysis.tsx`). -/
def minCommitsPerCheckpoint : Nat := 10

/-- `AccumulationState` from the spec and `TrajectoryAnalysis.tsx`: the
commits carried across under-threshold periods, and how many consecutive
periods have contributed so far. -/
structure AccumulationState where
  accumulated_commits : List String
  accumulated_from_periods : Nat
deriving DecidableEq, Repr

def emptyAccumulation : AccumulationState :=
  { accumulated_commits := [], accumulated_from_periods := 0 }

/-- `CommitsRange` from `webapp/types/trajectory.ts`, extended with the
spec's `accumulated_from_periods` field. -/
structure CommitsRange where
  start_sha : String
  end_sha : String
  commit_count : Nat
  accumulated_from_periods : Nat
deriving DecidableEq, Repr

/-- Modelled from the spec: one step of the Checkpoint Accumulator. The new
period's commits join the carried-over ones; below the minimum threshold no
checkpoint is created and `accumulated_from_periods` increments; once the
threshold is met a checkpoint range covering every accumulated commit is
emitted and the accumulation state resets. -/
def accumulatePeriod (threshold : Nat) (st : AccumulationState)
    (periodCommits : List String) : AccumulationState × Option CommitsRange :=
  let acc := st.accumulated_commits ++ periodCommits
  let periods := st.accumulated_from_periods + 1
  if acc.length < threshold then
    ({ accumulated_commits := acc, accumulated_from_periods := periods }, none)
  else
    (emptyAccumulation,
     some { start_sha := acc.headD "", end_sha := acc.getLastD "",
            commit_count := acc.length, accumulated_from_periods := periods })

/-- The accumulator run across consecutive periods: after each period, the
resulting state together with the checkpoint range it emitted, if any. -/
def accumulateTrace (threshold : Nat) (st : AccumulationState) :
    List (List String) → List (AccumulationState × Option CommitsRange)
  | [] => []
  | p :: ps =>
      let step := accumulatePeriod threshold st p
      step :: accumulateTrace threshold step.1 ps

/-- `TrajectoryCheckpoint` from `webapp/types/trajectory.ts`. -/
structure TrajectoryCheckpoint where
  checkpoint_id : Nat
  commits_range : CommitsRange
  evaluation : Evaluation
deriving DecidableEq, Repr

/-- `TrajectoryCache` from `webapp/types/trajectory.ts`, with the spec's
`accumulation_state` (also read by `TrajectoryAnalysis.tsx`). -/
structure TrajectoryCache where
  username : String
  repo_urls : List String
  checkpoints : List TrajectoryCheckpoint
  accumulation_state : AccumulationState
  last_synced_sha : Option String
  total_checkpoints : Nat
deriving DecidableEq, Repr

/-- Modelled from the spec: emitting checkpoint N+1. A fresh checkpoint with
the next monotonically increasing id is appended to the cache's checkpoint
list, the accumulation state resets, and the sync marker advances; the
earlier checkpoints are carried over untouched. -/
def appendCheckpoint (tc : TrajectoryCache) (range : CommitsRange)
    (ev : Evaluation) : TrajectoryCache :=
  { tc with
    checkpoints := tc.checkpoints ++
      [{ checkpoint_id := tc.checkpoints.length + 1,
         commits_range := range, evaluation := ev }]
    accumulation_state := emptyAccumulation
    last_synced_sha := some range.end_sha
    total_checkpoints := tc.total_checkpoints + 1 }

/-- From `TrajectoryAnalysis.tsx` (`analyzeTrajectory`):
`const aliases = selectedAuthors.map(a => a.trim());`
`const groupedUsername = aliases.slice().sort().join(',');`
— each selected author alias is trimmed, the aliases are sorted with the
default lexicographic string sort, and joined with commas. -/
def groupedUsername (selectedAuthors : List String) : String :=
  String.intercalate ","
    (List.insertionSort (· ≤ ·) (selectedAuthors.map String.trim))

/-! ### Concrete data used to instantiate the theorems -/

def demoCommits : List Commit :=
  [⟨"d1", "alice", 1, "s1", 1, 2, 3⟩, ⟨"d2", "alice", 2, "s2", 1, 4, 5⟩]

/-- A cached Evaluation whose `last_commit_sha` is the most recent commit of
`demoCommits`. -/
def demoCachedEval : Evaluation :=
  { username := "alice"
    scores := [50, 60, 70, 80, 90, 100]
    reasoning := "cached"
    commits_summary := { total_additions := 6, total_deletions := 8, files_changed := 2 }
    last_commit_sha := some "d2"
    total_commits_evaluated := 2
    new_commits_count := 2 }

/-- A Judge whose score calls always succeed with fixed in-range scores and
whose LLM merge call always fails. -/
def demoJudge : JudgeOracle :=
  { score := fun _ _ =>
      .ok { chunk_index := 0, scores := [50, 60, 70, 80, 90, 100], reasoning := "r" }
    merge := fun _ => none }

/-- A Judge whose score calls always fail. -/
def demoFailingJudge : JudgeOracle :=
  { score := fun _ _ => .error .timeout, merge := fun _ => none }

/-- The outcome of a sequential run of `demoJudge` over `demoCommits` with no
baseline: one chunk, one Judge call, the Judge's fixed scores. -/
def demoSequentialOutcome : EvalOutcome :=
  { evaluation :=
      { username := "alice"
        scores := [50, 60, 70, 80, 90, 100]
        reasoning := "r"
        commits_summary := { total_additions := 6, total_deletions := 8, files_changed := 2 }
        last_commit_sha := some "d2"
        total_commits_evaluated := 2
        new_commits_count := 2 }
    judge_calls := 1 }

def demoResultA : ChunkResult :=
  { chunk_index := 0, scores := [10, 20, 30, 40, 50, 60], reasoning := "ra" }

def demoResultB : ChunkResult :=
  { chunk_index := 1, scores := [70, 80, 90, 100, 0, 50], reasoning := "rb" }

/-- One alias entry of the README's weighted-merge example: the given
commit-count weight and the same score on every dimension. -/
def demoAliasEntry (name : String) (w : Nat) (score : ℚ) : WeightedEvaluation :=
  { author := name
    weight := w
    evaluation :=
      { username := name
        scores := [score, score, score, score, score, score]
        reasoning := "r"
        commits_summary := { total_additions := 0, total_deletions := 0, files_changed := 0 }
        last_commit_sha := none
        total_commits_evaluated := w
        new_commits_count := 0 } }

/-- The README's alias example: weights 42, 3, 5 with per-identity scores
`s₁`, `s₂`, `s₃` on every dimension. -/
def demoAliasEntries (s₁ s₂ s₃ : ℚ) : List WeightedEvaluation :=
  [demoAliasEntry "CarterWu" 42 s₁, demoAliasEntry "wu-yanbiao" 3 s₂,
   demoAliasEntry "wyb" 5 s₃]

/-- Period commit counts `[8, 1, 5]` across three consecutive periods. -/
def demoPeriods : List (List String) :=
  [["c1", "c2", "c3", "c4", "c5", "c6", "c7", "c8"], ["c9"],
   ["c10", "c11", "c12", "c13", "c14"]]

def demoRange : CommitsRange :=
  { start_sha := "c1", end_sha := "c14", commit_count := 14,
    accumulated_from_periods := 3 }

def demoCheckpoint : TrajectoryCheckpoint :=
  { checkpoint_id := 1
    commits_range := { start_sha := "a1", end_sha := "a9", commit_count := 9,
                       accumulated_from_periods := 1 }
    evaluation := demoCachedEval }

def demoTrajectory : TrajectoryCache :=
  { username := "alice"
    repo_urls := ["https://example.com/r"]
    checkpoints := [demoCheckpoint]
    accumulation_state := emptyAccumulation
    last_synced_sha := some "a9"
    total_checkpoints := 1 }

end Eval

namespace Eval

theorem chunkPlanner_nil (budget : Nat) : chunkPlanner budget [] = [] := by
  simp [chunkPlanner]

theorem chunkPlanner_join (budget : Nat) :
    ∀ commits : List Commit, (chunkPlanner budget commits).flatten = commits := by
  intro commits
  induction commits using chunkPlanner.induct budget with
  | case1 => simp [chunkPlanner]
  | case2 c cs ih =>
      simp only [chunkPlanner, List.flatten_cons, ih, List.cons_append,
        List.take_append_drop]

theorem chunkPlanner_chunks_ne_nil (budget : Nat) :
    ∀ commits : List Commit, ∀ ch ∈ chunkPlanner budget commits, ch ≠ [] := by
  intro commits
  induction commits using chunkPlanner.induct budget with
  | case1 => simp [chunkPlanner]
  | case2 c cs ih =>
      intro ch hch
      simp only [chunkPlanner, List.mem_cons] at hch
      rcases hch with h | h
      · subst h; exact List.cons_ne_nil _ _
      · exact ih ch h

theorem chunkPlanner_single (budget : Nat) (commits : List Commit)
    (hne : commits ≠ []) (hle : commits.length ≤ budget) :
    chunkPlanner budget commits = [commits] := by
  cases commits with
  | nil => exact absurd rfl hne
  | cons c cs =>
      simp only [List.length_cons] at hle
      have htake : cs.take (budget - 1) = cs := List.take_of_length_le (by omega)
      have hdrop : cs.drop (budget - 1) = [] := List.drop_eq_nil_of_le (by omega)
      simp [chunkPlanner, htake, hdrop]

/-- C2: the Chunk Planner's output covers the input exactly once, in the
original order, with no gaps and no overlap (its concatenation reconstructs
the input), every produced chunk is non-empty, a non-empty input of at most
one budget unit yields exactly one chunk, and an empty input yields an empty
chunk list; the planner is a total function, so there is no failure mode. -/
theorem chunkPlanner_partition_spec (budget : Nat) (commits : List Commit) :
    (chunkPlanner budget commits).flatten = commits
    ∧ (∀ ch ∈ chunkPlanner budget commits, ch ≠ [])
    ∧ (commits ≠ [] → commits.length ≤ budget → chunkPlanner budget commits = [commits])
    ∧ chunkPlanner budget ([] : List Commit) = [] :=
  ⟨chunkPlanner_join budget commits,
   chunkPlanner_chunks_ne_nil budget commits,
   fun hne hle => chunkPlanner_single budget commits hne hle,
   chunkPlanner_nil budget⟩

/-- Concrete instantiation of `chunkPlanner_partition_spec`: two commits with
budget 10 form a single chunk that reconstructs the input. -/
theorem chunkPlanner_partition_spec_witness :
    (chunkPlanner 10 [⟨"c1", "alice", 1, "s1", 1, 2, 3⟩, ⟨"c2", "alice", 2, "s2", 1, 4, 5⟩]).flatten
        = [⟨"c1", "alice", 1, "s1", 1, 2, 3⟩, ⟨"c2", "alice", 2, "s2", 1, 4, 5⟩]
    ∧ chunkPlanner 10 [⟨"c1", "alice", 1, "s1", 1, 2, 3⟩, ⟨"c2", "alice", 2, "s2", 1, 4, 5⟩]
        = [[⟨"c1", "alice", 1, "s1", 1, 2, 3⟩, ⟨"c2", "alice", 2, "s2", 1, 4, 5⟩]] :=
  ⟨(chunkPlanner_partition_spec 10 _).1,
   (chunkPlanner_partition_spec 10 _).2.2.1 (by decide) (by decide)⟩

/-! ### Executor: per-chunk failure isolation (C5) -/

theorem runChunksWithBaseline_length (judge : JudgeOracle)
    (bs : Option (List ℚ)) (chunks : List (List Commit)) :
    (runChunksWithBaseline judge bs chunks).length = chunks.length := by
  cases chunks <;> simp [runChunksWithBaseline]

theorem runChunksWithBaseline_getElem? (judge : JudgeOracle)
    (bs : Option (List ℚ)) (chunks : List (List Commit)) (i : Nat) :
    (runChunksWithBaseline judge bs chunks)[i]?
      = chunks[i]?.map (callJudge judge (if i = 0 then bs else none)) := by
  cases chunks with
  | nil => simp [runChunksWithBaseline]
  | cons c cs =>
      cases i with
      | zero => simp [runChunksWithBaseline]
      | succ n => simp [runChunksWithBaseline, List.getElem?_map]

theorem except_isOk_ok {ε α : Type} (a : α) :
    (Except.ok a : Except ε α).isOk = true := rfl

theorem except_isOk_error {ε α : Type} (e : ε) :
    (Except.error e : Except ε α).isOk = false := rfl

theorem successfulResults_cons_ok (r : ChunkResult)
    (rest : List (Except JudgeError ChunkResult)) :
    successfulResults (.ok r :: rest) = r :: successfulResults rest := rfl

theorem successfulResults_cons_error (e : JudgeError)
    (rest : List (Except JudgeError ChunkResult)) :
    successfulResults (.error e :: rest) = successfulResults rest := rfl

theorem successfulResults_ne_nil_iff (outcomes : List (Except JudgeError ChunkResult)) :
    successfulResults outcomes ≠ [] ↔ ∃ o ∈ outcomes, o.isOk = true := by
  induction outcomes with
  | nil => simp [successfulResults]
  | cons o rest ih =>
      cases o with
      | ok r =>
          rw [successfulResults_cons_ok]
          simp [except_isOk_ok]
      | error e =>
          rw [successfulResults_cons_error]
          simp [except_isOk_error, ih]

theorem parallelMergeResults_isSome (llm : List ChunkResult → Option MergedResult)
    (results : List ChunkResult) :
    (parallelMergeResults llm results).isSome = true ↔ results ≠ [] := by
  cases results with
  | nil => simp [parallelMergeResults]
  | cons r rs =>
      cases h : llm (sortByChunkIndex (r :: rs)) with
      | none => simp [parallelMergeResults, h]
      | some m =>
          by_cases hv : validScoresB m.scores <;>
            simp [parallelMergeResults, h, hv]

theorem evaluateCommits_parallel_isOk (judge : JudgeOracle) (budget : Nat)
    (username : String) (commits : List Commit) (baseline : Option Evaluation)
    (hne : commits ≠ []) :
    (evaluateCommits judge true budget username commits baseline).isOk = true
      ↔ successfulResults (runChunksWithBaseline judge
          (baseline.map Evaluation.scores) (chunkPlanner budget commits)) ≠ [] := by
  unfold evaluateCommits
  rw [if_neg (by simpa [List.isEmpty_iff] using hne)]
  simp only [if_pos]
  rw [← parallelMergeResults_isSome judge.merge]
  cases h : parallelMergeResults judge.merge
      (successfulResults (runChunksWithBaseline judge
        (baseline.map Evaluation.scores) (chunkPlanner budget commits))) with
  | none => simp [h, except_isOk_error]
  | some m => simp [h, except_isOk_ok]

/-- C5: in the Evaluation Executor, every chunk is attempted and an
individual chunk's Judge-call failure only occupies that chunk's own outcome
slot (the outcome list has one entry per chunk and entry `i` depends only on
chunk `i`), so a failure neither aborts sibling chunks nor crashes the
batch; and the Executor returns a fatal error to the caller if and only if
zero chunks succeed. -/
theorem executor_chunk_failure_isolation (judge : JudgeOracle) (budget : Nat)
    (username : String) (commits : List Commit) (baseline : Option Evaluation)
    (hne : commits ≠ []) :
    (∀ bs chunks, (runChunksWithBaseline judge bs chunks).length = chunks.length)
    ∧ (∀ bs chunks (i : Nat),
        (runChunksWithBaseline judge bs chunks)[i]?
          = chunks[i]?.map (callJudge judge (if i = 0 then bs else none)))
    ∧ ((evaluateCommits judge true budget username commits baseline).isOk = true
        ↔ ∃ o ∈ runChunksWithBaseline judge (baseline.map Evaluation.scores)
            (chunkPlanner budget commits), o.isOk = true) :=
  ⟨fun bs chunks => runChunksWithBaseline_length judge bs chunks,
   fun bs chunks i => runChunksWithBaseline_getElem? judge bs chunks i,
   (evaluateCommits_parallel_isOk judge budget username commits baseline hne).trans
     (successfulResults_ne_nil_iff _)⟩

/-- Concrete instantiation of `executor_chunk_failure_isolation`: with a
Judge that always fails, the two-commit batch (one chunk) reports no
successful chunk, so the batch is fatal. -/
theorem executor_chunk_failure_isolation_witness :
    ((evaluateCommits demoFailingJudge true 10 "alice" demoCommits none).isOk = true
      ↔ ∃ o ∈ runChunksWithBaseline demoFailingJudge none (chunkPlanner 10 demoCommits),
          o.isOk = true) :=
  (executor_chunk_failure_isolation demoFailingJudge 10 "alice" demoCommits none
    (by decide)).2.2

/-! ### Merge Engine: deterministic fallback on LLM merge failure (C1) -/

theorem parallelMergeResults_fallback (llm : List ChunkResult → Option MergedResult)
    (results : List ChunkResult)
    (hfail : llm (sortByChunkIndex results) = none
      ∨ ∃ m, llm (sortByChunkIndex results) = some m ∧ validScoresB m.scores = false)
    (hne : results ≠ []) :
    parallelMergeResults llm results
      = some (simpleAverageMerge (sortByChunkIndex results)) := by
  unfold parallelMergeResults
  rw [if_neg (by simpa [List.isEmpty_iff] using hne)]
  rcases hfail with h | ⟨m, hm, hv⟩
  · simp [h]
  · simp [hm, hv]

theorem simpleAverageMerge_scores (rs : List ChunkResult) (i : Nat) (h : i < numDims) :
    (simpleAverageMerge rs).scores[i]?
      = some ((rs.map fun r => r.scores.getD i 0).sum / (rs.length : ℚ)) := by
  simp [simpleAverageMerge, dimAverage, List.getElem?_map, List.getElem?_range, h]

/-- C1: when the parallel-mode LLM merge call fails or returns invalid data,
the Merge Engine falls back deterministically to `simpleAverageMerge`, whose
score for each dimension is the unweighted arithmetic mean across all
successful ChunkResults (reasoning concatenated/truncated inside
`simpleAverageMerge`); the fallback succeeds whenever at least one chunk
succeeded, and the overall evaluation still returns success — for any Judge
whose merge call always fails, the Executor reports ok as long as one chunk
succeeded, never surfacing the merge failure. -/
theorem parallel_merge_fallback_average (llm : List ChunkResult → Option MergedResult)
    (results : List ChunkResult)
    (hfail : llm (sortByChunkIndex results) = none
      ∨ ∃ m, llm (sortByChunkIndex results) = some m ∧ validScoresB m.scores = false)
    (hne : results ≠ []) :
    parallelMergeResults llm results
      = some (simpleAverageMerge (sortByChunkIndex results))
    ∧ (parallelMergeResults llm results).isSome = true
    ∧ (∀ i, i < numDims →
        (simpleAverageMerge (sortByChunkIndex results)).scores[i]?
          = some (((sortByChunkIndex results).map fun r => r.scores.getD i 0).sum
              / ((sortByChunkIndex results).length : ℚ)))
    ∧ (∀ (judge : JudgeOracle) (budget : Nat) (username : String)
          (commits : List Commit) (baseline : Option Evaluation),
        commits ≠ [] →
        successfulResults (runChunksWithBaseline judge (baseline.map Evaluation.scores)
          (chunkPlanner budget commits)) ≠ [] →
        (evaluateCommits judge true budget username commits baseline).isOk = true) :=
  ⟨parallelMergeResults_fallback llm results hfail hne,
   (parallelMergeResults_isSome llm results).mpr hne,
   fun i h => simpleAverageMerge_scores _ i h,
   fun judge budget username commits baseline hc hs =>
     (evaluateCommits_parallel_isOk judge budget username commits baseline hc).mpr hs⟩

/-- Concrete instantiation of `parallel_merge_fallback_average`: with an
always-failing LLM merge, two chunk results merge to their fallback average,
and a parallel run whose single chunk succeeds still reports success. -/
theorem parallel_merge_fallback_average_witness :
    parallelMergeResults (fun _ => none) [demoResultA, demoResultB]
      = some (simpleAverageMerge (sortByChunkIndex [demoResultA, demoResultB]))
    ∧ (evaluateCommits demoJudge true 10 "alice" demoCommits none).isOk = true :=
  ⟨(parallel_merge_fallback_average (fun _ => none) [demoResultA, demoResultB]
      (Or.inl rfl) (by decide)).1,
   (parallel_merge_fallback_average (fun _ => none) [demoResultA, demoResultB]
      (Or.inl rfl) (by decide)).2.2.2 demoJudge 10 "alice" demoCommits none
      (by decide)
      (by rw [chunkPlanner_single 10 demoCommits (by decide) (by decide)]; decide)⟩

/-! ### Merge Engine: completion-order invariance (C6) -/

theorem sorted_key_eq_of_perm (l₁ l₂ : List ChunkResult)
    (hp : l₁.Perm l₂)
    (hs₁ : List.Sorted indexLE l₁) (hs₂ : List.Sorted indexLE l₂)
    (hnd : (l₁.map ChunkResult.chunk_index).Nodup) : l₁ = l₂ := by
  haveI : IsAntisymm ChunkResult
      (fun a b => a.chunk_index < b.chunk_index ∨ a = b) := ⟨by
    rintro a b (h1 | rfl) h2
    · rcases h2 with h2 | h2
      · omega
      · exact h2.symm
    · rfl⟩
  have hnd₂ : (l₂.map ChunkResult.chunk_index).Nodup := ((hp.map _).nodup_iff).mp hnd
  have key₁ : List.Pairwise
      (fun a b : ChunkResult => a.chunk_index ≠ b.chunk_index) l₁ := by
    simpa [List.Nodup, List.pairwise_map] using hnd
  have key₂ : List.Pairwise
      (fun a b : ChunkResult => a.chunk_index ≠ b.chunk_index) l₂ := by
    simpa [List.Nodup, List.pairwise_map] using hnd₂
  have hs₁' : List.Sorted
      (fun a b : ChunkResult => a.chunk_index < b.chunk_index ∨ a = b) l₁ :=
    (hs₁.and key₁).imp fun h => Or.inl (lt_of_le_of_ne h.1 h.2)
  have hs₂' : List.Sorted
      (fun a b : ChunkResult => a.chunk_index < b.chunk_index ∨ a = b) l₂ :=
    (hs₂.and key₂).imp fun h => Or.inl (lt_of_le_of_ne h.1 h.2)
  exact List.eq_of_perm_of_sorted hp hs₁' hs₂'

theorem sortByChunkIndex_perm (rs : List ChunkResult) :
    (sortByChunkIndex rs).Perm rs :=
  List.perm_insertionSort indexLE rs

theorem sortByChunkIndex_sorted (rs : List ChunkResult) :
    List.Sorted indexLE (sortByChunkIndex rs) := by
  haveI : IsTotal ChunkResult indexLE := ⟨fun a b => Nat.le_total _ _⟩
  haveI : IsTrans ChunkResult indexLE := ⟨fun a b c => Nat.le_trans⟩
  exact List.sorted_insertionSort indexLE rs

theorem sortByChunkIndex_eq_of_perm (rs rs' : List ChunkResult)
    (hperm : rs'.Perm rs) (hnd : (rs.map ChunkResult.chunk_index).Nodup) :
    sortByChunkIndex rs' = sortByChunkIndex rs := by
  have hp : (sortByChunkIndex rs').Perm (sortByChunkIndex rs) :=
    ((sortByChunkIndex_perm rs').trans hperm).trans (sortByChunkIndex_perm rs).symm
  have hnd₁ : ((sortByChunkIndex rs').map ChunkResult.chunk_index).Nodup :=
    ((((sortByChunkIndex_perm rs').trans hperm).map _).nodup_iff).mpr hnd
  exact sorted_key_eq_of_perm _ _ hp (sortByChunkIndex_sorted rs')
    (sortByChunkIndex_sorted rs) hnd₁

/-- C6: for a fixed chunk partition (so the chunk indices are pairwise
distinct), the parallel-mode merge result is invariant under any permutation
of the chunk completion order: the Merge Engine re-sorts the ChunkResults by
original chunk index, so merging a permuted completion order equals merging
the canonical order. -/
theorem parallel_merge_completion_order_invariant
    (llm : List ChunkResult → Option MergedResult) (rs rs' : List ChunkResult)
    (hperm : rs'.Perm rs) (hnd : (rs.map ChunkResult.chunk_index).Nodup) :
    sortByChunkIndex rs' = sortByChunkIndex rs
    ∧ parallelMergeResults llm rs' = parallelMergeResults llm rs := by
  have hsort := sortByChunkIndex_eq_of_perm rs rs' hperm hnd
  refine ⟨hsort, ?_⟩
  have hiff : rs' = [] ↔ rs = [] := by
    constructor
    · intro h; subst h; exact hperm.nil_eq.symm
    · intro h; subst h; exact hperm.eq_nil
  have hemp : rs'.isEmpty = rs.isEmpty := by
    rw [Bool.eq_iff_iff]
    simp [List.isEmpty_iff, hiff]
  unfold parallelMergeResults
  rw [hemp, hsort]

/-- Concrete instantiation of `parallel_merge_completion_order_invariant`:
two chunk results arriving in swapped completion order merge identically. -/
theorem parallel_merge_completion_order_invariant_witness :
    parallelMergeResults (fun _ => none) [demoResultB, demoResultA]
      = parallelMergeResults (fun _ => none) [demoResultA, demoResultB] :=
  (parallel_merge_completion_order_invariant (fun _ => none)
    [demoResultA, demoResultB] [demoResultB, demoResultA]
    (List.Perm.swap demoResultA demoResultB []) (by decide)).2

/-! ### Evaluate: idempotence under an unchanged commit history (C3) -/

/-- C3: re-running `evaluate` for a repository whose cached Evaluation's
`last_commit_sha` already covers all known commits returns the cached
Evaluation unchanged and performs zero Judge calls, for every Judge, mode,
and budget. -/
theorem evaluate_idempotent_no_new_commits (judge : JudgeOracle) (parallel : Bool)
    (budget : Nat) (username : String) (allCommits : List Commit) (e : Evaluation)
    (hcov : commitsSince e.last_commit_sha allCommits = []) :
    evaluate judge parallel budget username allCommits (some e)
      = .ok { evaluation := e, judge_calls := 0 } := by
  unfold evaluate
  simp [hcov]

/-- Concrete instantiation of `evaluate_idempotent_no_new_commits`: the
cached Evaluation's `last_commit_sha` is the newest demo commit, so the
cached result comes back unchanged with zero Judge calls. -/
theorem evaluate_idempotent_no_new_commits_witness :
    evaluate demoFailingJudge false 10 "alice" demoCommits (some demoCachedEval)
      = .ok { evaluation := demoCachedEval, judge_calls := 0 } :=
  evaluate_idempotent_no_new_commits demoFailingJudge false 10 "alice" demoCommits
    demoCachedEval (by decide)

/-! ### Alias Aggregator: commit-count-weighted average (C4) -/

theorem mergeEvaluations_scores_getElem
    (synth : List WeightedEvaluation → Option String) (username : String)
    (entries : List WeightedEvaluation) (i : Nat) (h : i < numDims) :
    (mergeEvaluations synth username entries).scores[i]?
      = some ((entries.map fun we =>
          (we.weight : ℚ) * we.evaluation.scores.getD i 0).sum / totalWeight entries) := by
  simp [mergeEvaluations, weightedDimScore, List.getElem?_map, List.getElem?_range, h]

/-- The claim's second sanity value is arithmetically wrong: with weights
`[42, 3, 5]` and per-identity scores `[90, 50, 50]`, the commit-count-weighted
average `(90*42 + 50*3 + 50*5) / 50` is `4180/50 = 418/5 = 83.6`, not
`85.6 = 428/5`. -/
theorem alias_weighted_average_856_counterexample :
    (mergeEvaluations (fun _ => none) "group" (demoAliasEntries 90 50 50)).scores[0]?
        = some (418 / 5)
    ∧ ((418 : ℚ) / 5 ≠ 428 / 5)
    ∧ ((90 * 42 + 50 * 3 + 50 * 5 : ℚ) / 50 = 418 / 5) := by
  refine ⟨?_, by norm_num, by norm_num⟩
  rw [mergeEvaluations_scores_getElem (fun _ => none) "group" _ 0 (by decide)]
  norm_num [demoAliasEntries, demoAliasEntry, totalWeight]

/-- C4 (amended): alias aggregation computes each merged per-dimension score
as the commit-count-weighted average across identities
(`sum(eval[dimension] * weight) / total_weight`); with weights `[42, 3, 5]`
and per-identity scores `[80, 80, 80]` on a dimension the merged score is
`80`, and with scores `[90, 50, 50]` and the same weights it is
`(90*42 + 50*3 + 50*5) / 50 = 418/5 = 83.6`. -/
theorem alias_weighted_average_scores
    (synth : List WeightedEvaluation → Option String) (username : String) :
    (∀ entries (i : Nat), i < numDims →
        (mergeEvaluations synth username entries).scores[i]?
          = some ((entries.map fun we =>
              (we.weight : ℚ) * we.evaluation.scores.getD i 0).sum / totalWeight entries))
    ∧ (mergeEvaluations synth username (demoAliasEntries 80 80 80)).scores[0]? = some 80
    ∧ (mergeEvaluations synth username (demoAliasEntries 90 50 50)).scores[0]?
        = some (418 / 5) :=
  ⟨fun entries i h => mergeEvaluations_scores_getElem synth username entries i h,
   (mergeEvaluations_scores_getElem synth username _ 0 (by decide)).trans
     (by norm_num [demoAliasEntries, demoAliasEntry, totalWeight]),
   (mergeEvaluations_scores_getElem synth username _ 0 (by decide)).trans
     (by norm_num [demoAliasEntries, demoAliasEntry, totalWeight])⟩

/-- Concrete instantiation of `alias_weighted_average_scores`: the merged
score of dimension 0 in the `[80, 80, 80]` example is the weighted-average
formula's value. -/
theorem alias_weighted_average_scores_witness :
    (mergeEvaluations (fun _ => none) "group" (demoAliasEntries 80 80 80)).scores[0]?
      = some (((demoAliasEntries 80 80 80).map fun we =>
          (we.weight : ℚ) * we.evaluation.scores.getD 0 0).sum
            / totalWeight (demoAliasEntries 80 80 80)) :=
  (alias_weighted_average_scores (fun _ => none) "group").1
    (demoAliasEntries 80 80 80) 0 (by decide)

/-! ### Checkpoint Accumulator: carry-forward below threshold (C7) -/

/-- C7: with minimum threshold 10 and period commit counts `[8, 1, 5]`, no
checkpoint is created after periods 1 and 2 (`accumulated_from_periods` is 1
then 2, with 8 then 9 commits carried forward), and after period 3 a
checkpoint covering all 14 commits with `accumulated_from_periods = 3` is
created, after which the accumulation state resets. -/
theorem checkpoint_accumulator_8_1_5 :
    (accumulateTrace minCommitsPerCheckpoint emptyAccumulation demoPeriods).map Prod.snd
        = [none, none, some demoRange]
    ∧ (accumulateTrace minCommitsPerCheckpoint emptyAccumulation demoPeriods).map
        (fun s => s.1.accumulated_from_periods) = [1, 2, 0]
    ∧ (accumulateTrace minCommitsPerCheckpoint emptyAccumulation demoPeriods).map
        (fun s => s.1.accumulated_commits.length) = [8, 9, 0]
    ∧ demoRange.commit_count = 14 ∧ demoRange.accumulated_from_periods = 3 := by
  decide

/-! ### Trajectory checkpoints: append-only, immutable (C9) -/

/-- C9: emitting checkpoint N+1 appends to the TrajectoryCache's checkpoint
list: the original list survives as an untouched initial segment (so no
earlier checkpoint's Evaluation or commits_range is mutated or deleted), the
list grows by exactly one, every earlier checkpoint is still present, and
the appended checkpoint carries the next monotonic id. -/
theorem checkpoints_append_only (tc : TrajectoryCache) (range : CommitsRange)
    (ev : Evaluation) :
    (appendCheckpoint tc range ev).checkpoints.take tc.checkpoints.length
        = tc.checkpoints
    ∧ (appendCheckpoint tc range ev).checkpoints.length = tc.checkpoints.length + 1
    ∧ (∀ cp ∈ tc.checkpoints, cp ∈ (appendCheckpoint tc range ev).checkpoints)
    ∧ (appendCheckpoint tc range ev).checkpoints.getLast?
        = some { checkpoint_id := tc.checkpoints.length + 1,
                 commits_range := range, evaluation := ev } := by
  refine ⟨?_, ?_, ?_, ?_⟩
  · simp [appendCheckpoint, List.take_left]
  · simp [appendCheckpoint]
  · intro cp hcp
    simp [appendCheckpoint, hcp]
  · simp [appendCheckpoint]

/-- Concrete instantiation of `checkpoints_append_only`: appending a second
checkpoint to the demo trajectory leaves the first checkpoint in place. -/
theorem checkpoints_append_only_witness :
    (appendCheckpoint demoTrajectory demoRange demoCachedEval).checkpoints.take
        demoTrajectory.checkpoints.length = demoTrajectory.checkpoints
    ∧ demoCheckpoint ∈ (appendCheckpoint demoTrajectory demoRange demoCachedEval).checkpoints :=
  ⟨(checkpoints_append_only demoTrajectory demoRange demoCachedEval).1,
   (checkpoints_append_only demoTrajectory demoRange demoCachedEval).2.2.1
     demoCheckpoint (by decide)⟩

/-! ### Evaluation invariants: score range and monotone totals (C8) -/

theorem validScoresB_bounds {scores : List ℚ} (h : validScoresB scores = true) :
    ∀ s ∈ scores, 0 ≤ s ∧ s ≤ 100 := by
  intro s hs
  simp only [validScoresB, Bool.and_eq_true, List.all_eq_true] at h
  have := h.2 s hs
  simpa using this

theorem getD_bounds {l : List ℚ} (hl : ∀ x ∈ l, 0 ≤ x ∧ x ≤ 100) (i : Nat) :
    0 ≤ l.getD i 0 ∧ l.getD i 0 ≤ 100 := by
  rw [List.getD_eq_getElem?_getD]
  cases h : l[i]? with
  | none => simp
  | some x =>
      have hx := hl x (List.getElem?_mem h)
      simpa using hx

theorem dimAverage_bounds (rs : List ChunkResult)
    (h : ∀ r ∈ rs, ∀ x ∈ r.scores, 0 ≤ x ∧ x ≤ 100) (i : Nat) :
    0 ≤ dimAverage rs i ∧ dimAverage rs i ≤ 100 := by
  unfold dimAverage
  rcases rs with _ | ⟨r0, rest⟩
  · norm_num
  have hmem : ∀ x ∈ (r0 :: rest).map fun r => r.scores.getD i 0, 0 ≤ x ∧ x ≤ 100 := by
    intro x hx
    obtain ⟨r, hr, rfl⟩ := List.mem_map.mp hx
    exact getD_bounds (h r hr) i
  have hnonneg : 0 ≤ ((r0 :: rest).map fun r => r.scores.getD i 0).sum :=
    List.sum_nonneg fun x hx => (hmem x hx).1
  have hlen : (0 : ℚ) < (((r0 :: rest).length : Nat) : ℚ) := by
    exact_mod_cast Nat.succ_pos rest.length
  constructor
  · exact div_nonneg hnonneg hlen.le
  · rw [div_le_iff₀ hlen]
    have hsum := List.sum_le_card_nsmul ((r0 :: rest).map fun r => r.scores.getD i 0)
      (100 : ℚ) fun x hx => (hmem x hx).2
    calc ((r0 :: rest).map fun r => r.scores.getD i 0).sum
        ≤ ((r0 :: rest).map fun r => r.scores.getD i 0).length • (100 : ℚ) := hsum
      _ = (((r0 :: rest).length : Nat) : ℚ) * 100 := by
          rw [nsmul_eq_mul, List.length_map]
      _ = 100 * (((r0 :: rest).length : Nat) : ℚ) := by ring

theorem simpleAverageMerge_bounds (rs : List ChunkResult)
    (h : ∀ r ∈ rs, ∀ x ∈ r.scores, 0 ≤ x ∧ x ≤ 100) :
    ∀ s ∈ (simpleAverageMerge rs).scores, 0 ≤ s ∧ s ≤ 100 := by
  intro s hs
  simp only [simpleAverageMerge, List.mem_map, List.mem_range] at hs
  obtain ⟨i, _, rfl⟩ := hs
  exact dimAverage_bounds rs h i

theorem callJudge_ok_valid {judge : JudgeOracle} {ctx : Option (List ℚ)}
    {chunk : List Commit} {r : ChunkResult}
    (h : callJudge judge ctx chunk = .ok r) : validScoresB r.scores = true := by
  unfold callJudge at h
  split at h
  · split at h
    · injection h with h
      subst h
      assumption
    · cases h
  · cases h

theorem successfulResults_valid_of (outcomes : List (Except JudgeError ChunkResult))
    (h : ∀ r : ChunkResult, .ok r ∈ outcomes → validScoresB r.scores = true) :
    ∀ r ∈ successfulResults outcomes, validScoresB r.scores = true := by
  induction outcomes with
  | nil => simp [successfulResults]
  | cons o rest ih =>
      cases o with
      | ok r0 =>
          rw [successfulResults_cons_ok]
          intro r hr
          rcases List.mem_cons.mp hr with rfl | hr'
          · exact h r (List.mem_cons_self _ _)
          · exact ih (fun r' h' => h r' (List.mem_cons_of_mem _ h')) r hr'
      | error e =>
          rw [successfulResults_cons_error]
          exact ih fun r' h' => h r' (List.mem_cons_of_mem _ h')

theorem runChunksWithBaseline_mem_ok_valid (judge : JudgeOracle)
    (bs : Option (List ℚ)) (chunks : List (List Commit)) :
    ∀ r : ChunkResult, .ok r ∈ runChunksWithBaseline judge bs chunks →
      validScoresB r.scores = true := by
  intro r hr
  rcases chunks with _ | ⟨c, cs⟩
  · simp [runChunksWithBaseline] at hr
  · simp only [runChunksWithBaseline, List.mem_cons, List.mem_map] at hr
    rcases hr with h | ⟨ch, _, h⟩
    · exact callJudge_ok_valid h.symm
    · exact callJudge_ok_valid h

theorem parallelMergeResults_bounds (llm : List ChunkResult → Option MergedResult)
    (results : List ChunkResult) (m : MergedResult)
    (hv : ∀ r ∈ results, validScoresB r.scores = true)
    (h : parallelMergeResults llm results = some m) :
    ∀ s ∈ m.scores, 0 ≤ s ∧ s ≤ 100 := by
  have havg := simpleAverageMerge_bounds (sortByChunkIndex results) fun r hr =>
    validScoresB_bounds (hv r ((sortByChunkIndex_perm results).subset hr))
  unfold parallelMergeResults at h
  split at h
  · cases h
  · split at h
    · split at h
      · injection h with h
        subst h
        exact validScoresB_bounds (by assumption)
      · injection h with h
        subst h
        exact havg
    · injection h with h
      subst h
      exact havg

theorem sequentialFold_valid (judge : JudgeOracle) (bs : Option (List ℚ)) :
    ∀ (chunks : List (List Commit)) (acc : Option ChunkResult),
      (∀ r0, acc = some r0 → validScoresB r0.scores = true) →
      ∀ r, sequentialFold judge bs chunks acc = some r →
        validScoresB r.scores = true := by
  intro chunks
  induction chunks with
  | nil =>
      intro acc hacc r h
      exact hacc r (by simpa [sequentialFold] using h)
  | cons ch rest ih =>
      intro acc hacc r h
      simp only [sequentialFold] at h
      cases hc : callJudge judge ((acc.map ChunkResult.scores).orElse fun _ => bs) ch with
      | ok r1 =>
          rw [hc] at h
          exact ih (some r1)
            (fun r0 h0 => by
              injection h0 with h0
              subst h0
              exact callJudge_ok_valid hc) r h
      | error e =>
          rw [hc] at h
          exact ih acc hacc r h

theorem evaluateCommits_scores_bounded (judge : JudgeOracle) (parallel : Bool)
    (budget : Nat) (username : String) (commits : List Commit)
    (baseline : Option Evaluation) (out : EvalOutcome)
    (h : evaluateCommits judge parallel budget username commits baseline = .ok out) :
    ∀ s ∈ out.evaluation.scores, 0 ≤ s ∧ s ≤ 100 := by
  unfold evaluateCommits at h
  split at h
  · cases h
  · split at h
    · split at h
      · cases h
      · rename_i m hm
        injection h with h
        subst h
        have hb := parallelMergeResults_bounds judge.merge _ m
          (successfulResults_valid_of _
            (runChunksWithBaseline_mem_ok_valid judge _ _)) hm
        intro s hs
        exact hb s (by simpa [finalizeEvaluation] using hs)
    · split at h
      · cases h
      · rename_i r hsf
        injection h with h
        subst h
        have hb := validScoresB_bounds
          (sequentialFold_valid judge _ _ none (fun r0 h0 => by cases h0) r hsf)
        intro s hs
        exact hb s (by simpa [finalizeEvaluation] using hs)

theorem evaluateCommits_total (judge : JudgeOracle) (parallel : Bool)
    (budget : Nat) (username : String) (commits : List Commit)
    (baseline : Option Evaluation) (out : EvalOutcome)
    (h : evaluateCommits judge parallel budget username commits baseline = .ok out) :
    out.evaluation.total_commits_evaluated
      = (baseline.map Evaluation.total_commits_evaluated).getD 0 + commits.length := by
  unfold evaluateCommits at h
  split at h
  · cases h
  · split at h
    · split at h
      · cases h
      · injection h with h
        subst h
        simp [finalizeEvaluation]
    · split at h
      · cases h
      · injection h with h
        subst h
        simp [finalizeEvaluation]

theorem evaluate_total_monotone (judge : JudgeOracle) (parallel : Bool)
    (budget : Nat) (username : String) (allCommits : List Commit) (e : Evaluation)
    (out : EvalOutcome)
    (h : evaluate judge parallel budget username allCommits (some e) = .ok out) :
    e.total_commits_evaluated ≤ out.evaluation.total_commits_evaluated := by
  simp only [evaluate] at h
  by_cases hn : (commitsSince e.last_commit_sha allCommits).isEmpty
  · rw [if_pos hn] at h
    injection h with h
    subst h
    exact Nat.le_refl _
  · rw [if_neg hn] at h
    rw [evaluateCommits_total judge parallel budget username _ (some e) out h]
    simp only [Option.map_some', Option.getD_some]
    exact Nat.le_add_right _ _

theorem weightedDimScore_bounds (entries : List WeightedEvaluation)
    (h : ∀ we ∈ entries, ∀ s ∈ we.evaluation.scores, 0 ≤ s ∧ s ≤ 100) (i : Nat) :
    0 ≤ weightedDimScore entries i ∧ weightedDimScore entries i ≤ 100 := by
  unfold weightedDimScore
  have htw0 : (0 : ℚ) ≤ totalWeight entries := by
    unfold totalWeight
    positivity
  have hterm : ∀ we ∈ entries,
      0 ≤ (we.weight : ℚ) * we.evaluation.scores.getD i 0 := fun we hwe =>
    mul_nonneg (by positivity) (getD_bounds (h we hwe) i).1
  have hnum : 0 ≤ (entries.map fun we =>
      (we.weight : ℚ) * we.evaluation.scores.getD i 0).sum := by
    refine List.sum_nonneg ?_
    intro x hx
    obtain ⟨we, hwe, rfl⟩ := List.mem_map.mp hx
    exact hterm we hwe
  rcases eq_or_lt_of_le htw0 with h0 | h0
  · rw [← h0, div_zero]
    norm_num
  · constructor
    · exact div_nonneg hnum htw0
    · rw [div_le_iff₀ h0]
      have htw : totalWeight entries
          = (entries.map fun we => ((we.weight : Nat) : ℚ)).sum := by
        unfold totalWeight
        rw [Nat.cast_list_sum, List.map_map]
        rfl
      calc (entries.map fun we =>
              (we.weight : ℚ) * we.evaluation.scores.getD i 0).sum
          ≤ (entries.map fun we => (100 : ℚ) * (we.weight : Nat)).sum := by
            refine List.sum_le_sum ?_
            intro we hwe
            rw [mul_comm (100 : ℚ)]
            exact mul_le_mul_of_nonneg_left (getD_bounds (h we hwe) i).2 (by positivity)
        _ = 100 * (entries.map fun we => ((we.weight : Nat) : ℚ)).sum := by
            rw [List.sum_map_mul_left]
        _ = 100 * totalWeight entries := by rw [htw]

theorem mergeEvaluations_bounds (synth : List WeightedEvaluation → Option String)
    (g : String) (entries : List WeightedEvaluation)
    (h : ∀ we ∈ entries, ∀ s ∈ we.evaluation.scores, 0 ≤ s ∧ s ≤ 100) :
    ∀ s ∈ (mergeEvaluations synth g entries).scores, 0 ≤ s ∧ s ≤ 100 := by
  intro s hs
  simp only [mergeEvaluations, List.mem_map, List.mem_range] at hs
  obtain ⟨i, _, rfl⟩ := hs
  exact weightedDimScore_bounds entries h i

/-- C8: every Evaluation the pipeline produces — by progressive (sequential)
merge, parallel LLM merge, the deterministic fallback average, or alias
aggregation over in-range cached Evaluations — has every dimension score in
[0,100]; and for a fixed identity and plugin, `total_commits_evaluated` is
monotonically non-decreasing across an incremental update of a cached
Evaluation. -/
theorem evaluation_invariants (judge : JudgeOracle) (parallel : Bool) (budget : Nat)
    (username : String) :
    (∀ commits baseline out,
        evaluateCommits judge parallel budget username commits baseline = .ok out →
        ∀ s ∈ out.evaluation.scores, 0 ≤ s ∧ s ≤ 100)
    ∧ (∀ (synth : List WeightedEvaluation → Option String) (g : String)
          (entries : List WeightedEvaluation),
        (∀ we ∈ entries, ∀ s ∈ we.evaluation.scores, 0 ≤ s ∧ s ≤ 100) →
        ∀ s ∈ (mergeEvaluations synth g entries).scores, 0 ≤ s ∧ s ≤ 100)
    ∧ (∀ allCommits e out,
        evaluate judge parallel budget username allCommits (some e) = .ok out →
        e.total_commits_evaluated ≤ out.evaluation.total_commits_evaluated) :=
  ⟨fun commits baseline out h =>
      evaluateCommits_scores_bounded judge parallel budget username commits baseline out h,
   fun synth g entries h => mergeEvaluations_bounds synth g entries h,
   fun allCommits e out h =>
      evaluate_total_monotone judge parallel budget username allCommits e out h⟩

/-- Concrete instantiation of `evaluation_invariants`: a sequential run over
the demo commits yields in-range scores, the alias merge of the in-range
`[80, 80, 80]` example yields in-range scores, and re-evaluating with a
covering cache keeps `total_commits_evaluated` unchanged. -/
theorem evaluation_invariants_witness :
    (∀ s ∈ demoSequentialOutcome.evaluation.scores, 0 ≤ s ∧ s ≤ 100)
    ∧ (∀ s ∈ (mergeEvaluations (fun _ => none) "group"
          (demoAliasEntries 80 80 80)).scores, 0 ≤ s ∧ s ≤ 100)
    ∧ demoCachedEval.total_commits_evaluated
        ≤ (EvalOutcome.mk demoCachedEval 0).evaluation.total_commits_evaluated :=
  ⟨(evaluation_invariants demoJudge false 10 "alice").1 demoCommits none
      demoSequentialOutcome
      (by
        unfold evaluateCommits
        rw [chunkPlanner_single 10 demoCommits (by decide) (by decide)]
        decide),
   (evaluation_invariants demoJudge false 10 "alice").2.1 (fun _ => none) "group"
      (demoAliasEntries 80 80 80)
      (by
        intro we hwe s hs
        fin_cases hwe <;> fin_cases hs <;> norm_num),
   (evaluation_invariants demoFailingJudge false 10 "alice").2.2 demoCommits
      demoCachedEval (EvalOutcome.mk demoCachedEval 0) (by decide)⟩

/-! ### Trajectory analysis entry point: identity-group key (C10) -/

/-- C10: the identity-group key sent to the backend — each selected author
alias trimmed, the aliases sorted, and joined with commas
(`TrajectoryAnalysis.tsx`, `analyzeTrajectory`) — is invariant under the
order in which the authors were selected. -/
theorem groupedUsername_order_invariant (l₁ l₂ : List String) (h : l₁.Perm l₂) :
    groupedUsername l₁ = groupedUsername l₂ := by
  unfold groupedUsername
  congr 1
  haveI : IsAntisymm String (· ≤ ·) := ⟨fun a b h1 h2 => le_antisymm h1 h2⟩
  haveI : IsTotal String (· ≤ ·) := ⟨fun a b => le_total a b⟩
  haveI : IsTrans String (· ≤ ·) := ⟨fun a b c h1 h2 => le_trans h1 h2⟩
  refine List.eq_of_perm_of_sorted (r := (· ≤ ·)) ?_ ?_ ?_
  · exact ((List.perm_insertionSort _ _).trans ((h.map _))).trans
      (List.perm_insertionSort _ _).symm
  · exact List.sorted_insertionSort _ _
  · exact List.sorted_insertionSort _ _

/-- Concrete instantiation of `groupedUsername_order_invariant`: selecting
the same two authors in either order yields the same grouped username. -/
theorem groupedUsername_order_invariant_witness :
    groupedUsername [" bob", "alice "] = groupedUsername ["alice ", " bob"] :=
  groupedUsername_order_invariant [" bob", "alice "] ["alice ", " bob"]
    (List.Perm.swap "alice " " bob" [])

end Eval
